import Mathlib

/-!
Verification of the edit-history and mutation-consistency engine of
`peakdet/editor.py` (class `_PhysioEditor`).

The editor state is embedded shallowly: numpy arrays of sample indices
become sorted `List Nat`, the signal becomes a `List Int` (the engine only
compares sample values), continuous time values become `Rat`, the three
session category sets become `Finset Nat`, and the history stack becomes a
`List HRec` whose head is the most recent record (Python appends to and
pops from the tail of the list; head-is-top is the same LIFO discipline).

Python exceptions are modelled by `EditRes`: a raising call returns
`.err e s` where `s` is the state at the moment of the raise (partial
mutations included), and a normal return is `.ok s`.

The external collaborators (`operations.reject_peaks`,
`operations.delete_peaks`, `operations.add_peaks`, `utils.check_troughs`)
are not part of the given source; they are modelled from the spec, see the
doc comments marked `Modelled from the spec`.
-/

namespace Peakdet

/-- Numpy error kinds raised by the code paths under study:
`ValueError` (explicit raise, and argmax of an empty slice),
`IndexError` (indexing an empty list, deleting past the end),
`KeyError` (`set.remove` of an absent element). -/
inductive PyErr where
  | valueError
  | indexError
  | keyError
deriving DecidableEq, Repr

/-- One record of `data._history`, as consumed by `_PhysioEditor.undo`
(editor.py lines 139-163).  Edit records carry their payload: the
`remove` keyword for `reject_peaks` / `delete_peaks` and the `add`
keyword for `add_peaks`.  Any other history entry (produced by loading,
filtering, etc.) is `otherRec` with its function name. -/
inductive HRec where
  | rejectRec (remove : List Nat)
  | deleteRec (remove : List Nat)
  | addRec (add : Nat)
  | otherRec (name : String)
deriving DecidableEq, Repr

/-- The editor state: the `Physio` object data reachable from
`_PhysioEditor` (signal samples, sampling frequency, the
`_metadata` arrays `peaks`, `reject`, `troughs`, the `_history` list)
together with the three session category sets created in
`_PhysioEditor.__init__` line 31. -/
structure EState where
  data : List Int
  fs : Rat
  time : List Rat
  mpeaks : List Nat
  mreject : List Nat
  troughs : List Nat
  history : List HRec
  rejected : Finset Nat
  deleted : Finset Nat
  included : Finset Nat
deriving DecidableEq

/-- Result of a call that may raise: `.err e s` carries the state at the
moment of the raise. -/
inductive EditRes where
  | ok (s : EState) : EditRes
  | err (e : PyErr) (s : EState) : EditRes
deriving DecidableEq

/-- The editor state after a call, whether it returned normally or
raised (Python exceptions propagate but the object keeps the state it
had at the raise). -/
def resState : EditRes → EState
  | .ok s => s
  | .err _ s => s

/-- `np.searchsorted(xs, v)` with the default `side="left"`: the leftmost
insertion point of `v` into the non-decreasing `xs`, i.e. the number of
elements strictly below `v`. -/
def ss {α : Type} [LinearOrder α] (xs : List α) (v : α) : Nat :=
  xs.countP (fun x => decide (x < v))

/-- `np.argmax(l)`: the first index attaining the maximum value, `none`
for the empty array (where numpy raises a `ValueError`).  On a tie the
earlier index wins, as in numpy. -/
def npArgmax? : List Int → Option Nat
  | [] => none
  | x :: xs =>
    match npArgmax? xs with
    | none => some 0
    | some j => if x < xs.getD j 0 then some (j + 1) else some 0

/-- Python slice `l[a:b]` (non-negative bounds, clamping, empty when
`b <= a`). -/
def pySlice {α : Type} (l : List α) (a b : Nat) : List α :=
  (l.drop a).take (b - a)

/-- The `time` axis built once in `_PhysioEditor.__init__` line 27 and
stored on the editor: `np.arange(0, len(data)/fs, 1/fs)`, which over
exact arithmetic (for `fs > 0`) is `i / fs` for `i < len(data)`. -/
def npArangeTime (n : Nat) (fs : Rat) : List Rat :=
  (List.range n).map (fun i => (i : Rat) / fs)

/-- The `self.time` attribute read by `on_edit`. -/
def timeOf (s : EState) : List Rat := s.time

/-- The `data.peaks` property: the peaks metadata with rejected entries
masked out.  Modelled from the spec, scenario A of section 8: rejecting
peaks 5 and 8 of `[2,5,8]` makes the peaks sequence `[2]`, so the
visible peaks are the `peaks` metadata minus the `reject` metadata. -/
def peaksOf (s : EState) : List Nat :=
  s.mpeaks.filter (fun p => decide (p ∉ s.mreject))

/-- Insert `v` into sorted `l` before the first element `>= v`; this is
`np.insert(l, np.searchsorted(l, v), v)` for a single value. -/
def insOne (v : Nat) : List Nat → List Nat
  | [] => [v]
  | x :: xs => if v ≤ x then v :: x :: xs else x :: insOne v xs

/-- Insert one value into a sorted duplicate-free list, keeping it sorted
and duplicate-free. -/
def insUnique (v : Nat) : List Nat → List Nat
  | [] => [v]
  | x :: xs =>
    if v < x then v :: x :: xs
    else if v = x then x :: xs
    else x :: insUnique v xs

/-- Sorted duplicate-free union of a sorted duplicate-free list with the
values of an arbitrary list. -/
def unionSorted (l : List Nat) (vs : List Nat) : List Nat :=
  vs.foldl (fun acc v => insUnique v acc) l

/-- `np.setdiff1d(a, b)`: the sorted duplicate-free values of `a` that do
not occur in `b`. -/
def npSetdiff1d (a b : List Nat) : List Nat :=
  unionSorted [] (a.filter (fun x => decide (x ∉ b)))

/-- `np.insert(a, np.searchsorted(a, vs), vs)` for sorted `a` and sorted
`vs` (the only shapes reached: the payload of a delete record is a slice
of the sorted peaks sequence): every value of `vs` lands before the first
element of `a` that is `>=` it, values keeping their given order. -/
def npInsertAtSS : List Nat → List Nat → List Nat
  | a, [] => a
  | [], v :: vs => v :: npInsertAtSS [] vs
  | x :: xs, v :: vs =>
    if v ≤ x then v :: npInsertAtSS (x :: xs) vs
    else x :: npInsertAtSS xs (v :: vs)

section WithTroughs

/- `utils.check_troughs(data, peaks, troughs)`.  Modelled from the spec,
section 3: the troughs are "always a pure function of (signal, peaks);
never edited directly; recomputed by the external Trough Recomputation
function after every peak mutation or undo".  The whole development is
parametric in that pure function `f`. -/
variable (f : List Int → List Nat → List Nat)

/-- `operations.reject_peaks(data, remove)`.  Modelled from the spec,
sections 4.4 and 4.3: the reject metadata gains the removed indices (the
undo engine reverses it by set difference), one trailing history record
`(reject_peaks, remove)` is appended, and the trough metadata is
recomputed from the new visible peaks. -/
def reject_peaks (s : EState) (remove : List Nat) : EState :=
  let mreject := unionSorted s.mreject remove
  { s with
    mreject := mreject
    history := .rejectRec remove :: s.history
    troughs := f s.data (s.mpeaks.filter (fun p => decide (p ∉ mreject))) }

/-- `operations.delete_peaks(data, remove)`.  Modelled from the spec,
sections 4.4 and 4.3: the removed sample indices leave the peaks
metadata (the undo engine reverses it by sorted reinsertion), one
trailing history record `(delete_peaks, remove)` is appended, and the
trough metadata is recomputed. -/
def delete_peaks (s : EState) (remove : List Nat) : EState :=
  let mpeaks := s.mpeaks.filter (fun p => decide (p ∉ remove))
  { s with
    mpeaks := mpeaks
    history := .deleteRec remove :: s.history
    troughs := f s.data (mpeaks.filter (fun p => decide (p ∉ s.mreject))) }

/-- `operations.add_peaks(data, newpeak)`.  Modelled from the spec,
sections 4.4 and 4.3: the new sample index enters the peaks metadata at
its sorted insertion point (the undo engine reverses it by binary-search
removal), one trailing history record `(add_peaks, newpeak)` is
appended, and the trough metadata is recomputed. -/
def add_peaks (s : EState) (newpeak : Nat) : EState :=
  let mpeaks := insOne newpeak s.mpeaks
  { s with
    mpeaks := mpeaks
    history := .addRec newpeak :: s.history
    troughs := f s.data (mpeaks.filter (fun p => decide (p ∉ s.mreject))) }

/-- The selection-mapping step of `_PhysioEditor.on_edit`, lines 106-107:
`tmin, tmax = np.searchsorted(self.time, (xmin, xmax))` and
`pmin, pmax = np.searchsorted(self.data.peaks, (tmin, tmax))`. -/
def mapSelection (s : EState) (xmin xmax : Rat) : (Nat × Nat) × (Nat × Nat) :=
  let tmin := ss (timeOf s) xmin
  let tmax := ss (timeOf s) xmax
  ((tmin, tmax), (ss (peaksOf s) tmin, ss (peaksOf s) tmax))

/-- `_PhysioEditor.on_edit(xmin, xmax, reject=..., insert=...)`,
editor.py lines 93-134.  A redraw with no state change is `.ok s`. -/
def on_edit (s : EState) (xmin xmax : Rat) (reject insert : Bool) : EditRes :=
  if reject && insert then .err .valueError s
  else
    let tmin := ss (timeOf s) xmin
    let tmax := ss (timeOf s) xmax
    let pmin := ss (peaksOf s) tmin
    let pmax := ss (peaksOf s) tmax
    if insert then
      if tmin ≠ tmax then
        match npArgmax? (pySlice s.data tmin tmax) with
        | none => .err .valueError s
        | some tmp =>
          let newpeak := tmin + tmp
          if newpeak = tmin then .ok s
          else .ok { (add_peaks f s newpeak) with
                     included := s.included ∪ {newpeak} }
      else .ok s
    else
      if pmax - pmin = 0 then .ok s
      else
        let remove := pySlice (peaksOf s) pmin pmax
        if reject then
          .ok { (reject_peaks f s remove) with
                rejected := s.rejected ∪ remove.toFinset }
        else
          .ok { (delete_peaks f s remove) with
                deleted := s.deleted ∪ remove.toFinset }

/-- `_PhysioEditor.undo()`, editor.py lines 136-167.  The history is
inspected at its top (`_history[-1]`, an `IndexError` when empty), a
non-edit top record returns with nothing popped, and an edit record is
popped and reversed; the `add_peaks` reversal removes the recorded index
from `included` with `set.remove`, a `KeyError` when absent, raised
after the peaks metadata was already rewritten and before the troughs
are recomputed. -/
def undo (s : EState) : EditRes :=
  match s.history with
  | [] => .err .indexError s
  | r :: rest =>
    match r with
    | .otherRec _ => .ok s
    | .rejectRec remove =>
      let mreject := npSetdiff1d s.mreject remove
      .ok { s with
            history := rest
            mreject := mreject
            rejected := s.rejected \ remove.toFinset
            troughs := f s.data (s.mpeaks.filter (fun p => decide (p ∉ mreject))) }
    | .deleteRec remove =>
      let mpeaks := npInsertAtSS s.mpeaks remove
      .ok { s with
            history := rest
            mpeaks := mpeaks
            deleted := s.deleted \ remove.toFinset
            troughs := f s.data (mpeaks.filter (fun p => decide (p ∉ s.mreject))) }
    | .addRec add =>
      let pos := ss s.mpeaks add
      if pos < s.mpeaks.length then
        let mpeaks := s.mpeaks.eraseIdx pos
        if add ∈ s.included then
          .ok { s with
                history := rest
                mpeaks := mpeaks
                included := s.included.erase add
                troughs := f s.data (mpeaks.filter (fun p => decide (p ∉ s.mreject))) }
        else
          .err .keyError { s with history := rest, mpeaks := mpeaks }
      else
        .err .indexError { s with history := rest }

end WithTroughs

/-! ### Concrete instances used by witnesses and counterexamples -/

/-- A concrete trough-recomputation function for witnesses: the troughs
are taken to be the peaks themselves (any pure function works). -/
def tf : List Int → List Nat → List Nat := fun _ ps => ps

/-- A concrete editor state: 10 samples at `fs = 1`, peaks `[2, 5, 8]`
(section 8 of the spec, scenario A), empty history. -/
def demoState : EState :=
  { data := [0, 1, 2, 3, 4, 5, 6, 7, 8, 9]
    fs := 1
    time := [0, 1, 2, 3, 4, 5, 6, 7, 8, 9]
    mpeaks := [2, 5, 8]
    mreject := []
    troughs := [2, 5, 8]
    history := []
    rejected := {}
    deleted := {}
    included := {} }

/-! ### Basic facts about the selection mapping -/

theorem ss_le_length {α : Type} [LinearOrder α] (xs : List α) (v : α) :
    ss xs v ≤ xs.length :=
  List.countP_le_length _

theorem ss_mono {α : Type} [LinearOrder α] (xs : List α) {v w : α}
    (h : v ≤ w) : ss xs v ≤ ss xs w := by
  apply List.countP_mono_left
  intro a _ ha
  simp only [decide_eq_true_eq] at ha ⊢
  exact ha.trans_le h

theorem ss_eq_zero {α : Type} [LinearOrder α] {xs : List α} {v : α}
    (h : ∀ y ∈ xs, v ≤ y) : ss xs v = 0 := by
  apply List.countP_eq_zero.mpr
  intro a ha
  simpa using not_lt.mpr (h a ha)

theorem ss_lt_length_of_mem {l : List Nat} {n : Nat} (h : n ∈ l) :
    ss l n < l.length := by
  rcases Nat.lt_or_ge (ss l n) l.length with h1 | h1
  · exact h1
  · exfalso
    have heq : ss l n = l.length := le_antisymm (ss_le_length l n) h1
    have := List.countP_eq_length.mp heq n h
    simp at this

/-- In a sorted list, the left insertion point of a member is the index
of its first occurrence, so `np.delete` at that index is `List.erase`. -/
theorem sorted_eraseIdx_ss {l : List Nat} (hl : l.Sorted (· ≤ ·)) {n : Nat}
    (h : n ∈ l) : l.eraseIdx (ss l n) = l.erase n := by
  induction l with
  | nil => cases h
  | cons x xs ih =>
    obtain ⟨hx, hs⟩ := List.sorted_cons.mp hl
    by_cases hxn : x < n
    · have hxne : x ≠ n := ne_of_lt hxn
      have hmem : n ∈ xs := by
        rcases List.mem_cons.mp h with h1 | h1
        · exact absurd h1.symm hxne
        · exact h1
      have hcount : ss (x :: xs) n = ss xs n + 1 := by
        simp [ss, List.countP_cons, hxn]
      rw [hcount, List.eraseIdx_cons_succ, List.erase_cons_tail, ih hs hmem]
      simpa using hxne
    · have hxn' : n ≤ x := not_lt.mp hxn
      have hxeq : x = n := by
        rcases List.mem_cons.mp h with h1 | h1
        · exact h1.symm
        · exact le_antisymm (hx n h1) hxn'
      have hcount : ss (x :: xs) n = 0 := by
        apply ss_eq_zero
        intro y hy
        rcases List.mem_cons.mp hy with h1 | h1
        · exact h1 ▸ hxn'
        · exact hxn'.trans (hx y h1)
      rw [hcount, List.eraseIdx_zero, hxeq, List.erase_cons_head]
      rfl

/-! ### C1: undo on an empty History Stack -/

/-- C1 (counterexample): the claim says that `undo()` on an empty History
Stack does not raise, but `self.data._history[-1]` on an empty list
raises an `IndexError` (editor.py line 140): here is a concrete editor
state with empty history on which `undo` raises. -/
theorem undo_empty_raises_cex :
    undo tf demoState = .err .indexError demoState := rfl

/-- C1 (amended): for every editor state whose History Stack is empty,
calling `undo()` raises an `IndexError` and leaves all state (peaks,
troughs, category sets) and the stack unchanged. -/
theorem undo_empty_history (f : List Int → List Nat → List Nat)
    (s : EState) (h : s.history = []) :
    undo f s = .err .indexError s := by
  unfold undo
  rw [h]

/-- Witness for `undo_empty_history` at a concrete state. -/
theorem undo_empty_history_witness :
    demoState.history = [] ∧ undo tf demoState = .err .indexError demoState :=
  ⟨rfl, undo_empty_history tf demoState rfl⟩

/-! ### C3: bounds of the selection mapping -/

/-- C3 (counterexample): for the inverted selection `(9, 0)` on the
10-sample axis, the mapped sample range is `(9, 0)` and the mapped peak
range is `(3, 0)`, both inverted, refuting the claimed
`tmin_idx <= tmax_idx` and `pmin <= pmax` for inverted inputs. -/
theorem mapSelection_inverted_cex :
    mapSelection demoState 9 0 = ((9, 0), (3, 0)) ∧
      ¬ (9 : Nat) ≤ 0 ∧ ¬ (3 : Nat) ≤ 0 := by
  refine ⟨?_, by decide, by decide⟩
  decide

/-- C3 (amended): for every editor state (hence every non-decreasing
time axis produced from it and every sorted peaks sequence) and every
selection pair with `xmin <= xmax`, the selection-mapping step returns
index ranges with `0 <= tmin <= tmax <= len(timeAxis)` and
`0 <= pmin <= pmax <= len(peaks)`. -/
theorem mapSelection_bounds (s : EState) {xmin xmax : Rat}
    (h : xmin ≤ xmax) :
    let r := mapSelection s xmin xmax
    r.1.1 ≤ r.1.2 ∧ r.1.2 ≤ (timeOf s).length ∧
      r.2.1 ≤ r.2.2 ∧ r.2.2 ≤ (peaksOf s).length := by
  refine ⟨ss_mono _ h, ss_le_length _ _, ss_mono _ (ss_mono _ h), ss_le_length _ _⟩

/-- Witness for `mapSelection_bounds` at a concrete state and selection. -/
theorem mapSelection_bounds_witness :
    (9 : Rat) / 2 ≤ 17 / 2 ∧
      (let r := mapSelection demoState (9 / 2) (17 / 2);
        r.1.1 ≤ r.1.2 ∧ r.1.2 ≤ (timeOf demoState).length ∧
          r.2.1 ≤ r.2.2 ∧ r.2.2 ≤ (peaksOf demoState).length) :=
  ⟨by norm_num, mapSelection_bounds demoState (by norm_num)⟩

/-! ### C4: empty and inverted selections -/

/-- C4 (counterexample): the claim says no edit mode raises on an
inverted mapped range, but in insert mode the selection `(3, 1)` maps to
the inverted sample range `(3, 1)` and `np.argmax` of the empty slice
`data[3:1]` raises a `ValueError` (editor.py line 110). -/
theorem on_edit_inverted_insert_cex :
    (mapSelection demoState 3 1).1 = (3, 1) ∧
      on_edit tf demoState 3 1 false true = .err .valueError demoState :=
  ⟨by decide, by decide⟩

/-- C4 (amended): an empty mapped selection (`tmin = tmax`) is an
error-free redraw-only no-op in all three edit modes, and an inverted
mapped selection (`tmax <= tmin`) is an error-free redraw-only no-op in
reject and delete mode (insert mode instead raises on a strictly
inverted range): no state mutation and no history entry occur. -/
theorem on_edit_empty_or_inverted_noop (f : List Int → List Nat → List Nat)
    (s : EState) (xmin xmax : Rat) (rj ins : Bool)
    (hmode : ¬ (rj = true ∧ ins = true))
    (hrange : ss (timeOf s) xmax ≤ ss (timeOf s) xmin)
    (hins : ins = true → ss (timeOf s) xmin = ss (timeOf s) xmax) :
    on_edit f s xmin xmax rj ins = .ok s := by
  unfold on_edit
  have hmode' : (rj && ins) = false := by
    cases rj <;> cases ins <;> simp_all
  rw [hmode']
  simp only [Bool.false_eq_true, if_false]
  cases ins with
  | true =>
    have h := hins rfl
    simp [h]
  | false =>
    have hp : ss (peaksOf s) (ss (timeOf s) xmax) ≤ ss (peaksOf s) (ss (timeOf s) xmin) :=
      ss_mono _ hrange
    simp only [Bool.false_eq_true, if_false]
    rw [if_pos (by omega)]

/-- Witness for `on_edit_empty_or_inverted_noop` at a concrete state:
the zero-width insert selection `(1, 1)`. -/
theorem on_edit_empty_or_inverted_noop_witness :
    (¬ ((false = true) ∧ (true = true)) ∧
      ss (timeOf demoState) 1 ≤ ss (timeOf demoState) 1 ∧
      (true = true → ss (timeOf demoState) 1 = ss (timeOf demoState) 1)) ∧
      on_edit tf demoState 1 1 false true = .ok demoState :=
  ⟨⟨by simp, le_refl _, fun _ => rfl⟩,
    on_edit_empty_or_inverted_noop tf demoState 1 1 false true (by simp)
      (le_refl _) (fun _ => rfl)⟩

/-! ### C5: simultaneous reject and insert -/

/-- C5 (confirmed): an edit request with both `reject=True` and
`insert=True` raises a `ValueError` before any state mutation or
history append; the returned error state is the unchanged input state
(editor.py lines 103-104). -/
theorem on_edit_reject_insert_raises (f : List Int → List Nat → List Nat)
    (s : EState) (xmin xmax : Rat) :
    on_edit f s xmin xmax true true = .err .valueError s := by
  unfold on_edit
  simp

/-! ### Characterization of the selected slice of a sorted list -/

/-- On a sorted list, the slice between the left insertion points of `a`
and `b` is exactly the sublist of values in the half-open range
`[a, b)`. -/
theorem pySlice_ss_eq_filter :
    ∀ {V : List Nat}, V.Sorted (· ≤ ·) → ∀ (a b : Nat),
      pySlice V (ss V a) (ss V b) =
        V.filter (fun x => decide (a ≤ x) && decide (x < b)) := by
  intro V
  induction V with
  | nil => intro _ a b; rfl
  | cons x xs ih =>
    intro hV a b
    obtain ⟨hx, hs⟩ := List.sorted_cons.mp hV
    by_cases hxa : x < a
    · have ha : ss (x :: xs) a = ss xs a + 1 := by
        simp [ss, List.countP_cons, hxa]
      have hfx : (decide (a ≤ x) && decide (x < b)) = false := by
        simp [hxa, not_le.mpr hxa]
      by_cases hxb : x < b
      · have hb : ss (x :: xs) b = ss xs b + 1 := by
          simp [ss, List.countP_cons, hxb]
        rw [ha, hb]
        have h1 : pySlice (x :: xs) (ss xs a + 1) (ss xs b + 1) =
            pySlice xs (ss xs a) (ss xs b) := by
          simp only [pySlice, List.drop_succ_cons]
          congr 1
          omega
        rw [h1, ih hs a b, List.filter_cons, hfx]
        simp
      · have hxb' : b ≤ x := not_lt.mp hxb
        have hb : ss (x :: xs) b = 0 := by
          apply ss_eq_zero
          intro y hy
          rcases List.mem_cons.mp hy with h1 | h1
          · exact h1 ▸ hxb'
          · exact hxb'.trans (hx y h1)
        rw [ha, hb]
        have h1 : pySlice (x :: xs) (ss xs a + 1) 0 = [] := by
          simp [pySlice]
        rw [h1]
        symm
        apply List.filter_eq_nil_iff.mpr
        intro y hy
        rcases List.mem_cons.mp hy with h1 | h1
        · subst h1; simp [not_le.mpr hxa]
        · have : b ≤ y := hxb'.trans (hx y h1)
          simp [not_lt.mpr this]
    · have hax : a ≤ x := not_lt.mp hxa
      have hza : ss (x :: xs) a = 0 := by
        apply ss_eq_zero
        intro y hy
        rcases List.mem_cons.mp hy with h1 | h1
        · exact h1 ▸ hax
        · exact hax.trans (hx y h1)
      have hsa : ss xs a = 0 :=
        ss_eq_zero (fun y hy => hax.trans (hx y hy))
      by_cases hxb : x < b
      · have hb : ss (x :: xs) b = ss xs b + 1 := by
          simp [ss, List.countP_cons, hxb]
        rw [hza, hb]
        have h1 : pySlice (x :: xs) 0 (ss xs b + 1) = x :: pySlice xs 0 (ss xs b) := by
          simp [pySlice, List.take_succ_cons]
        rw [h1]
        have h2 := ih hs a b
        rw [hsa] at h2
        rw [h2, List.filter_cons_of_pos (by simp [hax, hxb])]
      · have hxb' : b ≤ x := not_lt.mp hxb
        have hb : ss (x :: xs) b = 0 := by
          apply ss_eq_zero
          intro y hy
          rcases List.mem_cons.mp hy with h1 | h1
          · exact h1 ▸ hxb'
          · exact hxb'.trans (hx y h1)
        rw [hza, hb]
        have h1 : pySlice (x :: xs) 0 0 = [] := by simp [pySlice]
        rw [h1]
        symm
        apply List.filter_eq_nil_iff.mpr
        intro y hy
        rcases List.mem_cons.mp hy with h1 | h1
        · subst h1; simp [not_lt.mpr hxb']
        · have : b ≤ y := hxb'.trans (hx y h1)
          simp [not_lt.mpr this]

/-! ### C7: reject and delete modes -/

/-- C7 (confirmed): in reject or delete mode (`insert=False`), an empty
mapped peak-position range `[pmin, pmax)` is a redraw-only no-op;
otherwise the sample indices at peak positions `[pmin, pmax)` (exactly
the visible peaks inside the sample window `[tmin, tmax)`) are added to
`rejected` (reject mode) or `deleted` (delete mode), and the matching
mutation operation is invoked with exactly those sample indices
(editor.py lines 115-132). -/
theorem on_edit_reject_delete_mode (f : List Int → List Nat → List Nat)
    (s : EState) (xmin xmax : Rat) (rj : Bool)
    (hpk : s.mpeaks.Sorted (· ≤ ·)) :
    let m := mapSelection s xmin xmax
    let remove := pySlice (peaksOf s) m.2.1 m.2.2
    (m.2.2 ≤ m.2.1 → on_edit f s xmin xmax rj false = .ok s) ∧
      remove = (peaksOf s).filter
        (fun p => decide (m.1.1 ≤ p) && decide (p < m.1.2)) ∧
      (m.2.1 < m.2.2 →
        (rj = true →
          on_edit f s xmin xmax rj false =
            .ok { reject_peaks f s remove with
                  rejected := s.rejected ∪ remove.toFinset }) ∧
        (rj = false →
          on_edit f s xmin xmax rj false =
            .ok { delete_peaks f s remove with
                  deleted := s.deleted ∪ remove.toFinset })) := by
  have hvis : (peaksOf s).Sorted (· ≤ ·) := hpk.filter _
  refine ⟨?_, pySlice_ss_eq_filter hvis _ _, ?_⟩
  · intro hle
    unfold on_edit
    cases rj <;>
      simp only [Bool.and_false, Bool.false_eq_true, if_false, mapSelection] at * <;>
      rw [if_pos (by omega)]
  · intro hlt
    constructor <;>
      (intro hrj
       subst hrj
       unfold on_edit
       simp only [Bool.and_false, Bool.false_eq_true, if_false, mapSelection] at *
       rw [if_neg (by omega)]
       try simp)

/-- Witness for `on_edit_reject_delete_mode`: scenario A of the spec,
the reject selection `(4.5, 8.5)` on peaks `[2, 5, 8]`. -/
theorem on_edit_reject_delete_mode_witness :
    demoState.mpeaks.Sorted (· ≤ ·) ∧
      (let m := mapSelection demoState (9/2) (17/2)
       let remove := pySlice (peaksOf demoState) m.2.1 m.2.2
       (m.2.2 ≤ m.2.1 → on_edit tf demoState (9/2) (17/2) true false = .ok demoState) ∧
         remove = (peaksOf demoState).filter
           (fun p => decide (m.1.1 ≤ p) && decide (p < m.1.2)) ∧
         (m.2.1 < m.2.2 →
           (true = true →
             on_edit tf demoState (9/2) (17/2) true false =
               .ok { reject_peaks tf demoState remove with
                     rejected := demoState.rejected ∪ remove.toFinset }) ∧
           (true = false →
             on_edit tf demoState (9/2) (17/2) true false =
               .ok { delete_peaks tf demoState remove with
                     deleted := demoState.deleted ∪ remove.toFinset }))) :=
  ⟨by decide, on_edit_reject_delete_mode tf demoState (9/2) (17/2) true (by decide)⟩

/-! ### Membership in the sorted-set helpers -/

theorem mem_insUnique {v x : Nat} : ∀ {l : List Nat},
    x ∈ insUnique v l ↔ x = v ∨ x ∈ l := by
  intro l
  induction l with
  | nil => simp [insUnique]
  | cons y ys ih =>
    simp only [insUnique]
    split
    · simp [List.mem_cons]
    · split
      · rename_i hlt heq
        subst heq
        simp only [List.mem_cons]
        constructor
        · intro h; exact Or.inr h
        · rintro (h | h)
          · exact Or.inl (h ▸ rfl)
          · exact h
      · simp only [List.mem_cons, ih]
        tauto

theorem mem_unionSorted {x : Nat} : ∀ {vs l : List Nat},
    x ∈ unionSorted l vs ↔ x ∈ l ∨ x ∈ vs := by
  intro vs
  induction vs with
  | nil => simp [unionSorted]
  | cons v vs ih =>
    intro l
    show x ∈ unionSorted (insUnique v l) vs ↔ _
    rw [ih, mem_insUnique]
    simp [List.mem_cons]
    tauto

theorem mem_npSetdiff1d {a b : List Nat} {x : Nat} :
    x ∈ npSetdiff1d a b ↔ x ∈ a ∧ x ∉ b := by
  unfold npSetdiff1d
  rw [mem_unionSorted]
  simp [List.mem_filter]

/-! ### Properties of the sorted reinsertion `npInsertAtSS` -/

theorem npInsertAtSS_nil_right (a : List Nat) : npInsertAtSS a [] = a := by
  cases a <;> simp [npInsertAtSS]

theorem npInsertAtSS_cons_cons (x v : Nat) (xs vs : List Nat) :
    npInsertAtSS (x :: xs) (v :: vs) =
      if v ≤ x then v :: npInsertAtSS (x :: xs) vs
      else x :: npInsertAtSS xs (v :: vs) := by
  simp [npInsertAtSS]

theorem npInsertAtSS_nil_cons (v : Nat) (vs : List Nat) :
    npInsertAtSS [] (v :: vs) = v :: npInsertAtSS [] vs := by
  simp [npInsertAtSS]

theorem npInsertAtSS_perm : ∀ (vs a : List Nat),
    (npInsertAtSS a vs).Perm (a ++ vs) := by
  intro vs
  induction vs with
  | nil =>
    intro a
    rw [npInsertAtSS_nil_right]
    simp
  | cons v vs ih =>
    intro a
    induction a with
    | nil =>
      rw [npInsertAtSS_nil_cons]
      exact (ih []).cons v
    | cons x xs iha =>
      rw [npInsertAtSS_cons_cons]
      by_cases h : v ≤ x
      · rw [if_pos h]
        exact ((ih (x :: xs)).cons v).trans List.perm_middle.symm
      · rw [if_neg h]
        exact iha.cons x

theorem mem_npInsertAtSS {a vs : List Nat} {y : Nat} :
    y ∈ npInsertAtSS a vs ↔ y ∈ a ∨ y ∈ vs := by
  rw [(npInsertAtSS_perm vs a).mem_iff, List.mem_append]

theorem npInsertAtSS_sorted : ∀ (vs a : List Nat),
    a.Sorted (· ≤ ·) → vs.Sorted (· ≤ ·) →
      (npInsertAtSS a vs).Sorted (· ≤ ·) := by
  intro vs
  induction vs with
  | nil =>
    intro a ha _
    rw [npInsertAtSS_nil_right]
    exact ha
  | cons v vs ih =>
    intro a
    induction a with
    | nil =>
      intro _ hv
      obtain ⟨hvb, hvs⟩ := List.sorted_cons.mp hv
      rw [npInsertAtSS_nil_cons]
      apply List.sorted_cons.mpr
      refine ⟨?_, ih [] List.sorted_nil hvs⟩
      intro b hb
      rcases mem_npInsertAtSS.mp hb with h1 | h1
      · cases h1
      · exact hvb b h1
    | cons x xs iha =>
      intro hxa hv
      obtain ⟨hxb, hxs⟩ := List.sorted_cons.mp hxa
      obtain ⟨hvb, hvs⟩ := List.sorted_cons.mp hv
      rw [npInsertAtSS_cons_cons]
      by_cases h : v ≤ x
      · rw [if_pos h]
        apply List.sorted_cons.mpr
        refine ⟨?_, ih (x :: xs) hxa hvs⟩
        intro b hb
        rcases mem_npInsertAtSS.mp hb with h1 | h1
        · rcases List.mem_cons.mp h1 with h2 | h2
          · exact h2 ▸ h
          · exact h.trans (hxb b h2)
        · exact hvb b h1
      · rw [if_neg h]
        apply List.sorted_cons.mpr
        refine ⟨?_, iha hxs hv⟩
        intro b hb
        rcases mem_npInsertAtSS.mp hb with h1 | h1
        · exact hxb b h1
        · rcases List.mem_cons.mp h1 with h2 | h2
          · exact h2 ▸ (le_of_not_le h)
          · exact (le_of_not_le h).trans (hvb b h2)

/-! ### Properties of `npArgmax?` (first index of the maximum) -/

theorem npArgmax?_eq_none {l : List Int} : npArgmax? l = none ↔ l = [] := by
  cases l with
  | nil => simp [npArgmax?]
  | cons x xs =>
    simp only [npArgmax?]
    cases npArgmax? xs with
    | none => simp
    | some j =>
      simp only
      constructor
      · intro hc
        split at hc <;> cases hc
      · intro hl; cases hl

theorem npArgmax?_lt_length : ∀ {l : List Int} {i : Nat},
    npArgmax? l = some i → i < l.length := by
  intro l
  induction l with
  | nil => intro i h; cases h
  | cons x xs ih =>
    intro i h
    simp only [npArgmax?] at h
    cases hxs : npArgmax? xs with
    | none =>
      rw [hxs] at h
      simp only [Option.some.injEq] at h
      subst h
      simp
    | some j =>
      rw [hxs] at h
      simp only at h
      split at h <;> simp only [Option.some.injEq] at h <;> subst h
      · have := ih hxs
        simpa using this
      · simp

theorem npArgmax?_is_max : ∀ {l : List Int} {i : Nat},
    npArgmax? l = some i →
      ∀ j, j < l.length → l.getD j 0 ≤ l.getD i 0 := by
  intro l
  induction l with
  | nil => intro i h; cases h
  | cons x xs ih =>
    intro i h j hj
    simp only [npArgmax?] at h
    cases hxs : npArgmax? xs with
    | none =>
      rw [hxs] at h
      simp only [Option.some.injEq] at h
      subst h
      have hnil : xs = [] := npArgmax?_eq_none.mp hxs
      subst hnil
      simp at hj
      subst hj
      simp
    | some k =>
      rw [hxs] at h
      simp only at h
      split at h <;> simp only [Option.some.injEq] at h <;> subst h
      · rename_i hlt
        cases j with
        | zero => simpa [List.getD_cons_zero, List.getD_cons_succ] using le_of_lt hlt
        | succ j =>
          simp only [List.getD_cons_succ]
          exact ih hxs j (by simpa using hj)
      · rename_i hge
        cases j with
        | zero => simp
        | succ j =>
          simp only [List.getD_cons_zero, List.getD_cons_succ]
          exact (ih hxs j (by simpa using hj)).trans (not_lt.mp hge)

theorem pySlice_getElem? {α : Type} (l : List α) (a b j : Nat) (h : j < b - a) :
    (pySlice l a b)[j]? = l[a + j]? := by
  simp [pySlice, List.getElem?_take, h, List.getElem?_drop]

theorem pySlice_length {α : Type} (l : List α) (a b : Nat) :
    (pySlice l a b).length = min (b - a) (l.length - a) := by
  simp [pySlice]

/-! ### C6: insert mode -/

/-- C6 (counterexample): the claim covers every insert-mode edit, but on
the inverted selection `(9, 0)` the mapped window is `(9, 0)`, the
slice `data[9:0]` is empty while `tmin != tmax`, and `np.argmax`
raises a `ValueError` — the edit is neither a no-op nor an insert
invocation. -/
theorem on_edit_insert_inverted_cex :
    (mapSelection demoState 9 0).1 = (9, 0) ∧
      on_edit tf demoState 9 0 false true = .err .valueError demoState :=
  ⟨by decide, by decide⟩

/-- C6 (amended): for every insert-mode edit whose mapped sample window
is not inverted (`tmin <= tmax`): an empty window (`tmin = tmax`) is a
redraw-only no-op; otherwise the candidate peak `tmin + argmax` lies in
the half-open window `[tmin, tmax)` and carries the maximum signal
value over that window, a candidate equal to `tmin` is a redraw-only
no-op, and any other candidate is inserted via the insert operation and
added to the `included` set (editor.py lines 109-114 and 127-129). -/
theorem on_edit_insert_mode (f : List Int → List Nat → List Nat)
    (s : EState) (xmin xmax : Rat) (tmin tmax : Nat)
    (htmin : tmin = ss (timeOf s) xmin)
    (htmax : tmax = ss (timeOf s) xmax)
    (htime : s.time.length = s.data.length)
    (hle : tmin ≤ tmax) :
    (tmin = tmax → on_edit f s xmin xmax false true = .ok s) ∧
      (tmin < tmax →
        ∃ tmp, npArgmax? (pySlice s.data tmin tmax) = some tmp ∧
          tmin + tmp < tmax ∧
          (∀ j, tmin ≤ j → j < tmax → s.data.getD j 0 ≤ s.data.getD (tmin + tmp) 0) ∧
          (tmin + tmp = tmin → on_edit f s xmin xmax false true = .ok s) ∧
          (tmin + tmp ≠ tmin →
            on_edit f s xmin xmax false true =
              .ok { add_peaks f s (tmin + tmp) with
                    included := s.included ∪ {tmin + tmp} })) := by
  subst htmin htmax
  have htmaxlen : ss (timeOf s) xmax ≤ s.data.length := by
    have h1 := ss_le_length s.time xmax
    have h2 : ss (timeOf s) xmax = ss s.time xmax := rfl
    omega
  constructor
  · intro heq
    unfold on_edit
    simp [heq]
  · intro hlt
    have hslice : pySlice s.data (ss (timeOf s) xmin) (ss (timeOf s) xmax) ≠ [] := by
      intro hnil
      have hl := congrArg List.length hnil
      rw [pySlice_length] at hl
      simp only [List.length_nil] at hl
      have h2 : ss (timeOf s) xmax = ss s.time xmax := rfl
      have h3 : ss (timeOf s) xmin = ss s.time xmin := rfl
      omega
    cases harg : npArgmax? (pySlice s.data (ss (timeOf s) xmin) (ss (timeOf s) xmax)) with
    | none => exact absurd (npArgmax?_eq_none.mp harg) hslice
    | some tmp =>
      have htmp : tmp < (pySlice s.data (ss (timeOf s) xmin) (ss (timeOf s) xmax)).length :=
        npArgmax?_lt_length harg
      rw [pySlice_length] at htmp
      refine ⟨tmp, rfl, by omega, ?_, ?_, ?_⟩
      · intro j hj1 hj2
        have hjd : j - ss (timeOf s) xmin < ss (timeOf s) xmax - ss (timeOf s) xmin := by
          omega
        have h1 : (pySlice s.data (ss (timeOf s) xmin) (ss (timeOf s) xmax))[j - ss (timeOf s) xmin]?
            = s.data[j]? := by
          rw [pySlice_getElem? _ _ _ _ hjd]
          congr 1
          omega
        have h2 : (pySlice s.data (ss (timeOf s) xmin) (ss (timeOf s) xmax))[tmp]?
            = s.data[ss (timeOf s) xmin + tmp]? := by
          rw [pySlice_getElem? _ _ _ _ (by omega)]
        have hmax := npArgmax?_is_max harg (j - ss (timeOf s) xmin)
          (by rw [pySlice_length]; omega)
        have hgd1 : (pySlice s.data (ss (timeOf s) xmin) (ss (timeOf s) xmax)).getD
            (j - ss (timeOf s) xmin) 0 = s.data.getD j 0 := by
          simp [List.getD_eq_getElem?_getD, h1]
        have hgd2 : (pySlice s.data (ss (timeOf s) xmin) (ss (timeOf s) xmax)).getD tmp 0
            = s.data.getD (ss (timeOf s) xmin + tmp) 0 := by
          simp [List.getD_eq_getElem?_getD, h2]
        rw [hgd1, hgd2] at hmax
        exact hmax
      · intro heq
        unfold on_edit
        simp [Nat.ne_of_lt hlt, harg, heq]
      · intro hne
        unfold on_edit
        simp [Nat.ne_of_lt hlt, harg, hne]

/-- Witness for `on_edit_insert_mode`: the insert selection `(6, 9)` on
the demo state maps to the sample window `[6, 9)`. -/
theorem on_edit_insert_mode_witness :
    ((6 : Nat) = ss (timeOf demoState) 6 ∧
      (9 : Nat) = ss (timeOf demoState) 9 ∧
      demoState.time.length = demoState.data.length ∧ (6 : Nat) ≤ 9) ∧
      ((6 = 9 → on_edit tf demoState 6 9 false true = .ok demoState) ∧
        ((6 : Nat) < 9 →
          ∃ tmp, npArgmax? (pySlice demoState.data 6 9) = some tmp ∧
            6 + tmp < 9 ∧
            (∀ j, 6 ≤ j → j < 9 →
              demoState.data.getD j 0 ≤ demoState.data.getD (6 + tmp) 0) ∧
            (6 + tmp = 6 → on_edit tf demoState 6 9 false true = .ok demoState) ∧
            (6 + tmp ≠ 6 →
              on_edit tf demoState 6 9 false true =
                .ok { add_peaks tf demoState (6 + tmp) with
                      included := demoState.included ∪ {6 + tmp} }))) :=
  ⟨⟨by decide, by decide, by decide, by decide⟩,
    on_edit_insert_mode tf demoState 6 9 6 9 (by decide) (by decide)
      (by decide) (by decide)⟩

/-! ### C8: how undo reverses each edit kind -/

/-- A demo state whose top history record is an `add_peaks` record for
index `8`, which is a current peak but not in `included`. -/
def staleAddState : EState := { demoState with history := [.addRec 8] }

/-- C8 (counterexample): the claim promises that any top edit record is
popped and fully reversed, but for an `add_peaks` record whose index is
not in the `included` set the reversal aborts with a `KeyError` after
the peaks mutation, leaving stale troughs instead of recomputing them. -/
theorem undo_edit_record_cex :
    (8 ∉ staleAddState.included) ∧
      undo tf staleAddState =
        .err .keyError { staleAddState with history := [], mpeaks := [2, 5] } :=
  ⟨by decide, by decide⟩

/-- C8 (amended): for every editor state whose top history record is an
edit record, `undo()` pops exactly that record and reverses it by kind:
reject subtracts the payload from the reject metadata and the
`rejected` set; delete reinserts the payload at its sorted insertion
points (a permutation of appending it, keeping the sequence sorted) and
removes it from `deleted`; insert — provided the recorded index is in
the `included` set (and among the peaks) — removes the index from the
peaks by binary search and from `included`; in each case the troughs
are recomputed from the restored peaks. -/
theorem undo_edit_record_reverses (f : List Int → List Nat → List Nat)
    (s : EState) (r : HRec) (rest : List HRec)
    (htop : s.history = r :: rest)
    (hpk : s.mpeaks.Sorted (· ≤ ·)) :
    (∀ D, r = .rejectRec D →
        undo f s = .ok { s with
          history := rest
          mreject := npSetdiff1d s.mreject D
          rejected := s.rejected \ D.toFinset
          troughs := f s.data
            (s.mpeaks.filter (fun p => decide (p ∉ npSetdiff1d s.mreject D))) }) ∧
    (∀ D, r = .deleteRec D → D.Sorted (· ≤ ·) →
        (npInsertAtSS s.mpeaks D).Sorted (· ≤ ·) ∧
        (npInsertAtSS s.mpeaks D).Perm (s.mpeaks ++ D) ∧
        undo f s = .ok { s with
          history := rest
          mpeaks := npInsertAtSS s.mpeaks D
          deleted := s.deleted \ D.toFinset
          troughs := f s.data
            ((npInsertAtSS s.mpeaks D).filter (fun p => decide (p ∉ s.mreject))) }) ∧
    (∀ n, r = .addRec n → n ∈ s.mpeaks → n ∈ s.included →
        undo f s = .ok { s with
          history := rest
          mpeaks := s.mpeaks.erase n
          included := s.included.erase n
          troughs := f s.data
            ((s.mpeaks.erase n).filter (fun p => decide (p ∉ s.mreject))) }) := by
  refine ⟨?_, ?_, ?_⟩
  · intro D hr
    subst hr
    unfold undo
    rw [htop]
  · intro D hr hD
    subst hr
    refine ⟨npInsertAtSS_sorted D s.mpeaks hpk hD, npInsertAtSS_perm D s.mpeaks, ?_⟩
    unfold undo
    rw [htop]
  · intro n hr hmem hin
    subst hr
    unfold undo
    rw [htop]
    simp only
    rw [if_pos (ss_lt_length_of_mem hmem), sorted_eraseIdx_ss hpk hmem, if_pos hin]

/-- A demo state reached after deleting peak `5`: its top history record
is the delete record with payload `[5]`. -/
def delState : EState :=
  { demoState with mpeaks := [2, 8], history := [.deleteRec [5]], deleted := {5} }

/-- Witness for `undo_edit_record_reverses` at a concrete state with a
delete record on top. -/
theorem undo_edit_record_reverses_witness :
    (delState.history = HRec.deleteRec [5] :: [] ∧
      delState.mpeaks.Sorted (· ≤ ·)) ∧
      ((∀ D, HRec.deleteRec [5] = .rejectRec D →
          undo tf delState = .ok { delState with
            history := []
            mreject := npSetdiff1d delState.mreject D
            rejected := delState.rejected \ D.toFinset
            troughs := tf delState.data
              (delState.mpeaks.filter
                (fun p => decide (p ∉ npSetdiff1d delState.mreject D))) }) ∧
      (∀ D, HRec.deleteRec [5] = .deleteRec D → D.Sorted (· ≤ ·) →
          (npInsertAtSS delState.mpeaks D).Sorted (· ≤ ·) ∧
          (npInsertAtSS delState.mpeaks D).Perm (delState.mpeaks ++ D) ∧
          undo tf delState = .ok { delState with
            history := []
            mpeaks := npInsertAtSS delState.mpeaks D
            deleted := delState.deleted \ D.toFinset
            troughs := tf delState.data
              ((npInsertAtSS delState.mpeaks D).filter
                (fun p => decide (p ∉ delState.mreject))) }) ∧
      (∀ n, HRec.deleteRec [5] = .addRec n → n ∈ delState.mpeaks →
          n ∈ delState.included →
          undo tf delState = .ok { delState with
            history := []
            mpeaks := delState.mpeaks.erase n
            included := delState.included.erase n
            troughs := tf delState.data
              ((delState.mpeaks.erase n).filter
                (fun p => decide (p ∉ delState.mreject))) })) :=
  ⟨⟨rfl, by decide⟩,
    undo_edit_record_reverses tf delState (.deleteRec [5]) [] rfl (by decide)⟩

/-! ### C10: undo of a foreign `add_peaks` record -/

/-- A demo state whose top history record is an `add_peaks` record whose
index `100` is neither in `included` nor in the peaks metadata. -/
def foreignAddState : EState := { demoState with history := [.addRec 100] }

/-- A demo state whose top history record is an `add_peaks` record whose
index `5` is a current peak but is not in `included` (as after an
insertion made before the editor session started). -/
def sessionAddState : EState := { demoState with history := [.addRec 5] }

/-- C10 (counterexample): the claim promises a `KeyError` whenever the
top record is `add_peaks` with an index outside `included`, but if the
recorded index (here `100`) is also beyond every current peak, the
`np.delete` call itself raises an `IndexError` instead, with the peaks
metadata still untouched. -/
theorem undo_foreign_add_cex :
    (100 ∉ foreignAddState.included) ∧
      undo tf foreignAddState = .err .indexError { foreignAddState with history := [] } :=
  ⟨by decide, by decide⟩

/-- C10 (amended): if the top history record is `add_peaks` with a
recorded index that is a member of the peaks metadata but not of the
`included` set, `undo()` raises a `KeyError`, and only after the peak
was already removed from the peaks metadata and before the troughs are
recomputed (the error state keeps the stale troughs and the popped
history). -/
theorem undo_foreign_add_raises (f : List Int → List Nat → List Nat)
    (s : EState) (n : Nat) (rest : List HRec)
    (htop : s.history = .addRec n :: rest)
    (hsorted : s.mpeaks.Sorted (· ≤ ·))
    (hmem : n ∈ s.mpeaks)
    (hnot : n ∉ s.included) :
    undo f s = .err .keyError { s with history := rest, mpeaks := s.mpeaks.erase n } := by
  unfold undo
  rw [htop]
  simp only
  rw [if_pos (ss_lt_length_of_mem hmem), sorted_eraseIdx_ss hsorted hmem,
    if_neg hnot]

/-- Witness for `undo_foreign_add_raises` at a concrete state. -/
theorem undo_foreign_add_raises_witness :
    (sessionAddState.history = .addRec 5 :: [] ∧
      sessionAddState.mpeaks.Sorted (· ≤ ·) ∧
      5 ∈ sessionAddState.mpeaks ∧ 5 ∉ sessionAddState.included) ∧
      undo tf sessionAddState =
        .err .keyError
          { sessionAddState with
            history := []
            mpeaks := sessionAddState.mpeaks.erase 5 } :=
  ⟨⟨rfl, by decide, by decide, by decide⟩,
    undo_foreign_add_raises tf sessionAddState 5 [] rfl (by decide) (by decide)
      (by decide)⟩

/-! ### Sorted duplicate-free lists: preservation and canonicity -/

theorem sorted_lt_insUnique {v : Nat} : ∀ {l : List Nat},
    l.Sorted (· < ·) → (insUnique v l).Sorted (· < ·) := by
  intro l
  induction l with
  | nil => intro _; simp [insUnique]
  | cons x xs ih =>
    intro hl
    obtain ⟨hx, hs⟩ := List.sorted_cons.mp hl
    simp only [insUnique]
    split
    · rename_i hlt
      apply List.sorted_cons.mpr
      refine ⟨?_, hl⟩
      intro b hb
      rcases List.mem_cons.mp hb with h1 | h1
      · exact h1 ▸ hlt
      · exact hlt.trans (hx b h1)
    · split
      · exact hl
      · rename_i hge hne
        apply List.sorted_cons.mpr
        refine ⟨?_, ih hs⟩
        intro b hb
        rcases mem_insUnique.mp hb with h1 | h1
        · subst h1
          omega
        · exact hx b h1

theorem sorted_lt_unionSorted : ∀ {vs l : List Nat},
    l.Sorted (· < ·) → (unionSorted l vs).Sorted (· < ·) := by
  intro vs
  induction vs with
  | nil => intro l hl; exact hl
  | cons v vs ih =>
    intro l hl
    exact ih (sorted_lt_insUnique hl)

theorem sorted_lt_npSetdiff1d (a b : List Nat) :
    (npSetdiff1d a b).Sorted (· < ·) :=
  sorted_lt_unionSorted List.sorted_nil

/-- Two sorted duplicate-free lists with the same members are equal. -/
theorem sorted_lt_eq_of_mem_iff : ∀ {l₁ l₂ : List Nat},
    l₁.Sorted (· < ·) → l₂.Sorted (· < ·) →
      (∀ x, x ∈ l₁ ↔ x ∈ l₂) → l₁ = l₂ := by
  intro l₁
  induction l₁ with
  | nil =>
    intro l₂ _ _ hmem
    cases l₂ with
    | nil => rfl
    | cons y ys => exact absurd ((hmem y).mpr (List.mem_cons_self y ys)) (by simp)
  | cons x xs ih =>
    intro l₂ h₁ h₂ hmem
    cases l₂ with
    | nil => exact absurd ((hmem x).mp (List.mem_cons_self x xs)) (by simp)
    | cons y ys =>
      obtain ⟨hx, hxs⟩ := List.sorted_cons.mp h₁
      obtain ⟨hy, hys⟩ := List.sorted_cons.mp h₂
      have hxy : x = y := by
        have hx2 : x ∈ y :: ys := (hmem x).mp (List.mem_cons_self x xs)
        have hy1 : y ∈ x :: xs := (hmem y).mpr (List.mem_cons_self y ys)
        rcases List.mem_cons.mp hx2 with h1 | h1
        · exact h1
        · rcases List.mem_cons.mp hy1 with h2 | h2
          · exact h2.symm
          · have := hy x h1
            have := hx y h2
            omega
      subst hxy
      congr 1
      apply ih hxs hys
      intro z
      constructor
      · intro hz
        have hz2 : z ∈ x :: ys := (hmem z).mp (List.mem_cons.mpr (Or.inr hz))
        rcases List.mem_cons.mp hz2 with h1 | h1
        · exact absurd h1 (by have := hx z hz; omega)
        · exact h1
      · intro hz
        have hz2 : z ∈ x :: xs := (hmem z).mpr (List.mem_cons.mpr (Or.inr hz))
        rcases List.mem_cons.mp hz2 with h1 | h1
        · exact absurd h1 (by have := hy z hz; omega)
        · exact h1

/-! ### Single sorted insertion `insOne`: membership and inversion -/

theorem mem_insOne {v x : Nat} : ∀ {l : List Nat},
    x ∈ insOne v l ↔ x = v ∨ x ∈ l := by
  intro l
  induction l with
  | nil => simp [insOne]
  | cons y ys ih =>
    simp only [insOne]
    split
    · simp [List.mem_cons]
    · simp only [List.mem_cons, ih]
      tauto

theorem sorted_le_insOne {v : Nat} : ∀ {l : List Nat},
    l.Sorted (· ≤ ·) → (insOne v l).Sorted (· ≤ ·) := by
  intro l
  induction l with
  | nil => intro _; simp [insOne]
  | cons x xs ih =>
    intro hl
    obtain ⟨hx, hs⟩ := List.sorted_cons.mp hl
    simp only [insOne]
    split
    · rename_i hle
      apply List.sorted_cons.mpr
      refine ⟨?_, hl⟩
      intro b hb
      rcases List.mem_cons.mp hb with h1 | h1
      · exact h1 ▸ hle
      · exact hle.trans (hx b h1)
    · rename_i hgt
      apply List.sorted_cons.mpr
      refine ⟨?_, ih hs⟩
      intro b hb
      rcases mem_insOne.mp hb with h1 | h1
      · subst h1; omega
      · exact hx b h1

theorem erase_insOne {v : Nat} : ∀ {l : List Nat},
    l.Sorted (· ≤ ·) → (insOne v l).erase v = l := by
  intro l
  induction l with
  | nil => simp [insOne]
  | cons x xs ih =>
    intro hl
    obtain ⟨_, hs⟩ := List.sorted_cons.mp hl
    simp only [insOne]
    split
    · exact List.erase_cons_head v (x :: xs)
    · rename_i hgt
      rw [List.erase_cons_tail, ih hs]
      simp
      omega

/-- Undoing `add_peaks`: deleting at the left insertion point of the
value just inserted recovers the original sorted list. -/
theorem insOne_restore {v : Nat} {l : List Nat} (hl : l.Sorted (· ≤ ·)) :
    (insOne v l).eraseIdx (ss (insOne v l) v) = l := by
  rw [sorted_eraseIdx_ss (sorted_le_insOne hl) (mem_insOne.mpr (Or.inl rfl)),
    erase_insOne hl]

/-- Undoing `delete_peaks`: reinserting the removed values at their left
insertion points recovers the original sorted list, provided the
removed values were exactly the members of `D` (with multiplicity). -/
theorem npInsertAtSS_filter_cancel {P D : List Nat}
    (hP : P.Sorted (· ≤ ·)) (hD : D.Sorted (· ≤ ·))
    (hfilt : P.filter (fun z => decide (z ∈ D)) = D) :
    npInsertAtSS (P.filter (fun z => decide (z ∉ D))) D = P := by
  have hperm : (npInsertAtSS (P.filter (fun z => decide (z ∉ D))) D).Perm P := by
    have hfp := List.filter_append_perm (fun z => decide (z ∉ D)) P
    have hnot : (fun a => !(fun z => decide (z ∉ D)) a) = (fun z : Nat => decide (z ∈ D)) := by
      funext a
      simp [decide_not]
    rw [hnot, hfilt] at hfp
    exact (npInsertAtSS_perm _ _).trans hfp
  exact List.eq_of_perm_of_sorted hperm
    (npInsertAtSS_sorted _ _ (hP.filter _) hD) hP

/-- The delete payload `peaks[pmin:pmax]` captures every occurrence in
the peaks metadata of each of its values: filtering the metadata by
membership in the payload returns exactly the payload. -/
theorem mpeaks_filter_mem_slice {s : EState}
    (hpk : s.mpeaks.Sorted (· ≤ ·)) (a b : Nat) :
    s.mpeaks.filter
      (fun z => decide (z ∈ pySlice (peaksOf s) (ss (peaksOf s) a) (ss (peaksOf s) b)))
      = pySlice (peaksOf s) (ss (peaksOf s) a) (ss (peaksOf s) b) := by
  have hvis : (peaksOf s).Sorted (· ≤ ·) := hpk.filter _
  have hchar := pySlice_ss_eq_filter hvis a b
  rw [hchar]
  have hcong : s.mpeaks.filter
      (fun z => decide (z ∈ (peaksOf s).filter (fun x => decide (a ≤ x) && decide (x < b))))
      = s.mpeaks.filter
        (fun z => (decide (a ≤ z) && decide (z < b)) && decide (z ∉ s.mreject)) := by
    apply List.filter_congr
    intro z hz
    have hiff : (z ∈ (peaksOf s).filter (fun x => decide (a ≤ x) && decide (x < b)))
        ↔ ((a ≤ z ∧ z < b) ∧ z ∉ s.mreject) := by
      simp only [List.mem_filter, peaksOf, Bool.and_eq_true, decide_eq_true_eq]
      constructor
      · rintro ⟨⟨_, h2⟩, h3⟩
        exact ⟨h3, h2⟩
      · rintro ⟨h1, h2⟩
        exact ⟨⟨hz, h2⟩, h1⟩
    have hdec : decide (z ∈ (peaksOf s).filter (fun x => decide (a ≤ x) && decide (x < b)))
        = decide ((a ≤ z ∧ z < b) ∧ z ∉ s.mreject) := decide_eq_decide.mpr hiff
    rw [hdec]
    simp
  rw [hcong]
  have h2 : (peaksOf s).filter (fun x => decide (a ≤ x) && decide (x < b)) =
      s.mpeaks.filter
        (fun z => (decide (a ≤ z) && decide (z < b)) && decide (z ∉ s.mreject)) := by
    show (s.mpeaks.filter _).filter _ = _
    rw [List.filter_filter]
  rw [h2]

/-! ### C9: pairwise disjointness of the category sets -/

/-- The disjointness invariant maintained by reject/delete edits and
undos on a fresh editor: `included` stays empty, `rejected` mirrors
part of the reject metadata, `deleted` indices are absent from the
peaks metadata, and `rejected` and `deleted` are disjoint. -/
def DisjInv (s : EState) : Prop :=
  s.included = ∅ ∧ (∀ x ∈ s.rejected, x ∈ s.mreject) ∧
    (∀ x ∈ s.deleted, x ∉ s.mpeaks) ∧ Disjoint s.rejected s.deleted

section ReachSection

variable (f : List Int → List Nat → List Nat)

/-- States reachable from `s` by reject- or delete-mode edits
(`insert=False` span selections) and undo key presses; an undo that
raises keeps the state it had at the raise. -/
inductive Reach : EState → EState → Prop
  | refl (s : EState) : Reach s s
  | edit {s t u : EState} (x y : Rat) (rj : Bool) (hr : Reach s t)
      (h : on_edit f t x y rj false = .ok u) : Reach s u
  | undoStep {s t u : EState} (hr : Reach s t)
      (h : resState (undo f t) = u) : Reach s u

/-- A reject- or delete-mode edit either changes nothing or applies the
corresponding operation to the visible peaks of some payload `D`. -/
theorem on_edit_noinsert_cases (s : EState) (x y : Rat) (rj : Bool)
    (u : EState) (h : on_edit f s x y rj false = .ok u) :
    u = s ∨ ∃ D : List Nat,
      D = pySlice (peaksOf s) (ss (peaksOf s) (ss (timeOf s) x))
        (ss (peaksOf s) (ss (timeOf s) y)) ∧
      (∀ p ∈ D, p ∈ s.mpeaks ∧ p ∉ s.mreject) ∧
      ((rj = true ∧
          u = { reject_peaks f s D with rejected := s.rejected ∪ D.toFinset }) ∨
        (rj = false ∧
          u = { delete_peaks f s D with deleted := s.deleted ∪ D.toFinset })) := by
  unfold on_edit at h
  simp only [Bool.and_false, Bool.false_eq_true, if_false] at h
  by_cases h0 : ss (peaksOf s) (ss (timeOf s) y) - ss (peaksOf s) (ss (timeOf s) x) = 0
  · rw [if_pos h0] at h
    left
    cases h
    rfl
  · rw [if_neg h0] at h
    right
    refine ⟨pySlice (peaksOf s) (ss (peaksOf s) (ss (timeOf s) x))
      (ss (peaksOf s) (ss (timeOf s) y)), rfl, ?_, ?_⟩
    · intro p hp
      have hsub : (pySlice (peaksOf s) (ss (peaksOf s) (ss (timeOf s) x))
          (ss (peaksOf s) (ss (timeOf s) y))).Sublist (peaksOf s) :=
        (List.take_sublist _ _).trans (List.drop_sublist _ _)
      have hmem : p ∈ peaksOf s := hsub.subset hp
      have := List.mem_filter.mp hmem
      simpa using this
    · cases rj with
      | true =>
        rw [if_pos rfl] at h
        cases h
        exact Or.inl ⟨rfl, rfl⟩
      | false =>
        rw [if_neg (by simp)] at h
        cases h
        exact Or.inr ⟨rfl, rfl⟩

theorem DisjInv_edit {t u : EState} {x y : Rat} {rj : Bool}
    (hI : DisjInv t) (h : on_edit f t x y rj false = .ok u) : DisjInv u := by
  obtain ⟨hinc, hrsub, hdel, hdisj⟩ := hI
  rcases on_edit_noinsert_cases f t x y rj u h with heq | ⟨D, _, hD, hcase⟩
  · rw [heq]
    exact ⟨hinc, hrsub, hdel, hdisj⟩
  · rcases hcase with ⟨_, hu⟩ | ⟨_, hu⟩
    · subst hu
      refine ⟨by simp [reject_peaks, hinc], ?_, ?_, ?_⟩
      · intro z hz
        simp only [reject_peaks] at hz ⊢
        rw [mem_unionSorted]
        rcases Finset.mem_union.mp hz with h1 | h1
        · exact Or.inl (hrsub z h1)
        · exact Or.inr (List.mem_toFinset.mp h1)
      · intro z hz
        simp only [reject_peaks] at hz ⊢
        exact hdel z hz
      · rw [Finset.disjoint_left]
        intro z hz hzd
        simp only [reject_peaks] at hz hzd
        rcases Finset.mem_union.mp hz with h1 | h1
        · exact (Finset.disjoint_left.mp hdisj h1) hzd
        · exact (hdel z hzd) ((hD z (List.mem_toFinset.mp h1)).1)
    · subst hu
      refine ⟨by simp [delete_peaks, hinc], ?_, ?_, ?_⟩
      · intro z hz
        simp only [delete_peaks] at hz ⊢
        exact hrsub z hz
      · intro z hz
        simp only [delete_peaks] at hz ⊢
        intro hzmem
        have := List.mem_filter.mp hzmem
        rcases Finset.mem_union.mp hz with h1 | h1
        · exact (hdel z h1) this.1
        · have : z ∉ D := by simpa using this.2
          exact this (List.mem_toFinset.mp h1)
      · rw [Finset.disjoint_left]
        intro z hz hzd
        simp only [delete_peaks] at hz hzd
        rcases Finset.mem_union.mp hzd with h1 | h1
        · exact (Finset.disjoint_left.mp hdisj hz) h1
        · exact ((hD z (List.mem_toFinset.mp h1)).2) (hrsub z hz)

theorem DisjInv_undo {t : EState} (hI : DisjInv t) :
    DisjInv (resState (undo f t)) := by
  obtain ⟨hinc, hrsub, hdel, hdisj⟩ := hI
  cases hh : t.history with
  | nil =>
    have hu : resState (undo f t) = t := by simp only [undo, hh, resState]
    rw [hu]
    exact ⟨hinc, hrsub, hdel, hdisj⟩
  | cons r rest =>
    cases r with
    | otherRec name =>
      have hu : resState (undo f t) = t := by simp only [undo, hh, resState]
      rw [hu]
      exact ⟨hinc, hrsub, hdel, hdisj⟩
    | rejectRec D =>
      have hu : resState (undo f t) =
          { t with history := rest
                   mreject := npSetdiff1d t.mreject D
                   rejected := t.rejected \ D.toFinset
                   troughs := f t.data (t.mpeaks.filter
                     (fun p => decide (p ∉ npSetdiff1d t.mreject D))) } := by
        simp only [undo, hh, resState]
      rw [hu]
      refine ⟨hinc, ?_, hdel, ?_⟩
      · intro z hz
        obtain ⟨hz1, hz2⟩ := Finset.mem_sdiff.mp hz
        exact mem_npSetdiff1d.mpr ⟨hrsub z hz1, by simpa using hz2⟩
      · exact Finset.disjoint_of_subset_left (Finset.sdiff_subset) hdisj
    | deleteRec D =>
      have hu : resState (undo f t) =
          { t with history := rest
                   mpeaks := npInsertAtSS t.mpeaks D
                   deleted := t.deleted \ D.toFinset
                   troughs := f t.data ((npInsertAtSS t.mpeaks D).filter
                     (fun p => decide (p ∉ t.mreject))) } := by
        simp only [undo, hh, resState]
      rw [hu]
      refine ⟨hinc, hrsub, ?_, ?_⟩
      · intro z hz
        obtain ⟨hz1, hz2⟩ := Finset.mem_sdiff.mp hz
        intro hzmem
        rcases mem_npInsertAtSS.mp hzmem with h1 | h1
        · exact (hdel z hz1) h1
        · exact hz2 (List.mem_toFinset.mpr h1)
      · exact Finset.disjoint_of_subset_right (Finset.sdiff_subset) hdisj
    | addRec n =>
      have hn : n ∉ t.included := by simp [hinc]
      by_cases hpos : ss t.mpeaks n < t.mpeaks.length
      · have hu : resState (undo f t) =
            { t with history := rest, mpeaks := t.mpeaks.eraseIdx (ss t.mpeaks n) } := by
          simp only [undo, hh, resState]
          rw [if_pos hpos, if_neg hn]
        rw [hu]
        refine ⟨hinc, hrsub, ?_, hdisj⟩
        intro z hz hzmem
        exact (hdel z hz) ((List.eraseIdx_sublist _ _).subset hzmem)
      · have hu : resState (undo f t) = { t with history := rest } := by
          simp only [undo, hh, resState]
          rw [if_neg hpos]
        rw [hu]
        exact ⟨hinc, hrsub, hdel, hdisj⟩

theorem DisjInv_reach {s0 s : EState} (h : Reach f s0 s) (h0 : DisjInv s0) :
    DisjInv s := by
  induction h with
  | refl => exact h0
  | edit x y rj hr hedit ih => exact DisjInv_edit f ih hedit
  | undoStep hr hres ih =>
    rw [← hres]
    exact DisjInv_undo f ih

end ReachSection

/-- C9 (amended): starting from an editor state with empty category
sets, after any sequence of reject- and delete-mode edits and undos
(no insert edits), the three category sets remain pairwise disjoint. -/
theorem category_sets_pairwise_disjoint
    (f : List Int → List Nat → List Nat) {s0 s : EState}
    (h0r : s0.rejected = ∅) (h0d : s0.deleted = ∅) (h0i : s0.included = ∅)
    (hreach : Reach f s0 s) :
    Disjoint s.rejected s.deleted ∧ Disjoint s.rejected s.included ∧
      Disjoint s.deleted s.included := by
  have hI : DisjInv s :=
    DisjInv_reach f hreach ⟨h0i, by simp [h0r], by simp [h0d], by simp [h0r]⟩
  obtain ⟨hinc, _, _, hdisj⟩ := hI
  exact ⟨hdisj, by simp [hinc], by simp [hinc]⟩

/-- A fresh editor on a signal whose maximum inside `[4, 8)` sits at
sample 5, with peaks `[2, 5, 8]`. -/
def c9base : EState :=
  { data := [0, 0, 0, 0, 0, 9, 0, 0, 0, 0]
    fs := 1
    time := [0, 1, 2, 3, 4, 5, 6, 7, 8, 9]
    mpeaks := [2, 5, 8]
    mreject := []
    troughs := [2, 5, 8]
    history := []
    rejected := {}
    deleted := {}
    included := {} }

/-- `c9base` after the delete-mode selection `(5, 6)` (deletes peak 5). -/
def c9afterDel : EState := resState (on_edit tf c9base 5 6 false false)

/-- `c9afterDel` after the insert-mode selection `(4, 8)` (reinserts
sample 5, the window maximum). -/
def c9afterIns : EState := resState (on_edit tf c9afterDel 4 8 false true)

/-- C9 (counterexample): deleting peak 5 and then inserting the window
maximum at sample 5 puts the index 5 into both `deleted` and
`included`, so the category sets are not pairwise disjoint after this
edit sequence on a fresh editor. -/
theorem category_sets_disjoint_cex :
    on_edit tf c9base 5 6 false false = .ok c9afterDel ∧
      on_edit tf c9afterDel 4 8 false true = .ok c9afterIns ∧
      ¬ Disjoint c9afterIns.deleted c9afterIns.included :=
  ⟨by decide, by decide,
    Finset.not_disjoint_iff.mpr ⟨5, by decide, by decide⟩⟩

/-- Witness for `category_sets_pairwise_disjoint`: one delete edit from
the fresh state `c9base`. -/
theorem category_sets_pairwise_disjoint_witness :
    (c9base.rejected = ∅ ∧ c9base.deleted = ∅ ∧ c9base.included = ∅) ∧
      (Disjoint c9afterDel.rejected c9afterDel.deleted ∧
        Disjoint c9afterDel.rejected c9afterDel.included ∧
        Disjoint c9afterDel.deleted c9afterDel.included) :=
  ⟨⟨rfl, rfl, rfl⟩,
    category_sets_pairwise_disjoint tf rfl rfl rfl
      (Reach.edit 5 6 false (Reach.refl c9base) (by decide))⟩

/-! ### C2: round trip of edits followed by undos -/

/-- Replace only the `deleted` bookkeeping set of a state.  The editor
never reads `deleted`, so `undo` commutes with this replacement. -/
def setDeleted (s : EState) (X : Finset Nat) : EState := { s with deleted := X }

/-- The delete payload of the top history record (empty for any other
kind): the indices that one `undo` press removes from `deleted`. -/
def delTop (s : EState) : Finset Nat :=
  match s.history with
  | HRec.deleteRec D :: _ => D.toFinset
  | _ => ∅

/-- The insert payload of the top history record (empty for any other
kind). -/
def addTop (s : EState) : Finset Nat :=
  match s.history with
  | HRec.addRec n :: _ => {n}
  | _ => ∅

section RoundTripSection

variable (f : List Int → List Nat → List Nat)

/-- `n` undo presses in sequence; `none` as soon as one raises. -/
def undoN : Nat → EState → Option EState
  | 0, s => some s
  | n + 1, s =>
    match undo f s with
    | .ok t => undoN n t
    | .err _ _ => none

theorem undo_setDeleted (s : EState) (X : Finset Nat) :
    undo f (setDeleted s X) =
      match undo f s with
      | .ok t => .ok (setDeleted t (X \ delTop s))
      | .err e t => .err e (setDeleted t X) := by
  cases hh : s.history with
  | nil => simp [undo, setDeleted, hh, delTop]
  | cons r rest =>
    cases r with
    | otherRec name => simp [undo, setDeleted, hh, delTop]
    | rejectRec D => simp [undo, setDeleted, hh, delTop]
    | deleteRec D => simp [undo, setDeleted, hh, delTop]
    | addRec n =>
      by_cases hpos : ss s.mpeaks n < s.mpeaks.length
      · by_cases hin : n ∈ s.included
        · simp [undo, setDeleted, hh, delTop, hpos, hin]
        · simp [undo, setDeleted, hh, delTop, hpos, hin]
      · simp [undo, setDeleted, hh, delTop, hpos]

theorem undo_ok_deleted {s t : EState} (h : undo f s = .ok t) :
    t.deleted = s.deleted \ delTop s := by
  cases hh : s.history with
  | nil => simp [undo, hh] at h
  | cons r rest =>
    cases r with
    | otherRec name =>
      simp only [undo, hh, EditRes.ok.injEq] at h
      subst h
      simp [delTop, hh]
    | rejectRec D =>
      simp only [undo, hh, EditRes.ok.injEq] at h
      subst h
      simp [delTop, hh]
    | deleteRec D =>
      simp only [undo, hh, EditRes.ok.injEq] at h
      subst h
      simp [delTop, hh]
    | addRec n =>
      by_cases hpos : ss s.mpeaks n < s.mpeaks.length
      · by_cases hin : n ∈ s.included
        · simp only [undo, hh, hpos, hin, if_true, if_pos, EditRes.ok.injEq] at h
          subst h
          simp [delTop, hh]
        · simp [undo, hh, hpos, hin] at h
      · simp [undo, hh, hpos] at h

theorem undoN_frame : ∀ (n : Nat) (s t : EState) (X : Finset Nat),
    undoN f n s = some t →
    ∃ B : Finset Nat, undoN f n (setDeleted s X) = some (setDeleted t (X \ B)) ∧
      t.deleted = s.deleted \ B := by
  intro n
  induction n with
  | zero =>
    intro s t X h
    simp only [undoN, Option.some.injEq] at h
    subst h
    exact ⟨∅, by simp [undoN], by simp⟩
  | succ n ih =>
    intro s t X h
    simp only [undoN] at h ⊢
    cases hu : undo f s with
    | err e t' => rw [hu] at h; cases h
    | ok u =>
      rw [hu] at h
      simp only [] at h
      have hset := undo_setDeleted f s X
      rw [hu] at hset
      simp only [] at hset
      rw [hset]
      simp only []
      obtain ⟨B, hB1, hB2⟩ := ih u t (X \ delTop s) h
      refine ⟨delTop s ∪ B, ?_, ?_⟩
      · rw [hB1]
        have : (X \ delTop s) \ B = X \ (delTop s ∪ B) := by
          ext z; simp; tauto
        rw [this]
      · have hud : u.deleted = s.deleted \ delTop s := undo_ok_deleted f hu
        rw [hB2, hud]
        ext z; simp; tauto

/-- Well-formedness of an editor state: sorted peaks metadata, sorted
duplicate-free reject metadata, a `rejected` set mirrored from the
reject metadata, and troughs consistent with the visible peaks. -/
def WFS (s : EState) : Prop :=
  s.mpeaks.Sorted (· ≤ ·) ∧ s.mreject.Sorted (· < ·) ∧
    (∀ x ∈ s.rejected, x ∈ s.mreject) ∧ s.troughs = f s.data (peaksOf s)

/-- `EditSeq s u n`: the state `u` results from `s` by `n` successful
(non no-op, history-appending) edits. -/
inductive EditSeq : EState → EState → Nat → Prop
  | refl (s : EState) : EditSeq s s 0
  | step {s t u : EState} {n : Nat} (x y : Rat) (rj ins : Bool)
      (hseq : EditSeq s t n) (h : on_edit f t x y rj ins = .ok u)
      (hlen : u.history.length = t.history.length + 1) : EditSeq s u (n + 1)

/-- Inverting a successful insert edit: one undo press recovers the
previous state exactly (the inserted index must be fresh for
`included`). -/
theorem invert_insert {s u : EState} {n : Nat}
    (hWF : WFS f s) (hn : n ∉ s.included)
    (hu : u = { add_peaks f s n with included := s.included ∪ {n} }) :
    WFS f u ∧ u.history = HRec.addRec n :: s.history ∧
      u.deleted = s.deleted ∪ delTop u ∧
      u.included = s.included ∪ addTop u ∧
      undo f u = .ok (setDeleted s (u.deleted \ delTop u)) := by
  obtain ⟨hpk, hrej, hrsub, htr⟩ := hWF
  subst hu
  refine ⟨⟨sorted_le_insOne hpk, hrej, hrsub, rfl⟩, rfl, by simp [add_peaks, delTop], ?_, ?_⟩
  · show s.included ∪ {n} = s.included ∪ addTop _
    rfl
  · have hmem : n ∈ insOne n s.mpeaks := mem_insOne.mpr (Or.inl rfl)
    have hpos := ss_lt_length_of_mem hmem
    have hinc : (s.included ∪ {n}).erase n = s.included := by
      rw [Finset.union_comm, ← Finset.insert_eq]
      exact Finset.erase_insert hn
    have hmp := insOne_restore (v := n) hpk
    simp only [undo, add_peaks]
    rw [if_pos hpos, if_pos (by simp : n ∈ s.included ∪ {n})]
    rw [hmp, hinc]
    simp only [peaksOf] at htr
    rw [← htr]
    simp [setDeleted, delTop, add_peaks]

/-- Inverting a successful reject edit: one undo press recovers the
previous state exactly. -/
theorem invert_reject {s u : EState} {D : List Nat}
    (hWF : WFS f s) (hD : ∀ p ∈ D, p ∈ s.mpeaks ∧ p ∉ s.mreject)
    (hu : u = { reject_peaks f s D with rejected := s.rejected ∪ D.toFinset }) :
    WFS f u ∧ u.history = HRec.rejectRec D :: s.history ∧
      u.deleted = s.deleted ∪ delTop u ∧
      u.included = s.included ∪ addTop u ∧
      undo f u = .ok (setDeleted s (u.deleted \ delTop u)) := by
  obtain ⟨hpk, hrej, hrsub, htr⟩ := hWF
  subst hu
  have hrestore : npSetdiff1d (unionSorted s.mreject D) D = s.mreject := by
    apply sorted_lt_eq_of_mem_iff (sorted_lt_npSetdiff1d _ _) hrej
    intro z
    rw [mem_npSetdiff1d, mem_unionSorted]
    constructor
    · rintro ⟨h1 | h1, h2⟩
      · exact h1
      · exact absurd h1 h2
    · intro hz
      exact ⟨Or.inl hz, fun hzD => (hD z hzD).2 hz⟩
  have hrejected : (s.rejected ∪ D.toFinset) \ D.toFinset = s.rejected := by
    rw [Finset.union_sdiff_right]
    apply Finset.sdiff_eq_self_of_disjoint
    rw [Finset.disjoint_left]
    intro z hz hzD
    exact (hD z (List.mem_toFinset.mp hzD)).2 (hrsub z hz)
  refine ⟨⟨hpk, sorted_lt_unionSorted hrej, ?_, rfl⟩, rfl,
    by simp [reject_peaks, delTop], by simp [reject_peaks, addTop], ?_⟩
  · intro z hz
    show z ∈ unionSorted s.mreject D
    rw [mem_unionSorted]
    rcases Finset.mem_union.mp hz with h1 | h1
    · exact Or.inl (hrsub z h1)
    · exact Or.inr (List.mem_toFinset.mp h1)
  · simp only [undo, reject_peaks]
    simp only [hrestore, hrejected]
    simp only [peaksOf] at htr
    rw [← htr]
    simp [setDeleted, delTop, reject_peaks]

/-- Inverting a successful delete edit: one undo press recovers the
previous state except for the `deleted` bookkeeping set, from which the
whole payload is removed. -/
theorem invert_delete {s u : EState} {a b : Nat}
    (hWF : WFS f s)
    (hu : u = { delete_peaks f s
        (pySlice (peaksOf s) (ss (peaksOf s) a) (ss (peaksOf s) b)) with
      deleted := s.deleted ∪
        (pySlice (peaksOf s) (ss (peaksOf s) a) (ss (peaksOf s) b)).toFinset }) :
    WFS f u ∧
      u.history = HRec.deleteRec
        (pySlice (peaksOf s) (ss (peaksOf s) a) (ss (peaksOf s) b)) :: s.history ∧
      u.deleted = s.deleted ∪ delTop u ∧
      u.included = s.included ∪ addTop u ∧
      undo f u = .ok (setDeleted s (u.deleted \ delTop u)) := by
  obtain ⟨hpk, hrej, hrsub, htr⟩ := hWF
  subst hu
  have hDs : (pySlice (peaksOf s) (ss (peaksOf s) a) (ss (peaksOf s) b)).Sorted (· ≤ ·) :=
    ((hpk.filter _).drop).take
  have hfilt := mpeaks_filter_mem_slice hpk a b
  have hrestore := npInsertAtSS_filter_cancel hpk hDs hfilt
  refine ⟨⟨hpk.filter _, hrej, hrsub, rfl⟩, rfl,
    by simp [delete_peaks, delTop], by simp [delete_peaks, addTop], ?_⟩
  · simp only [undo, delete_peaks]
    simp only [hrestore]
    simp only [peaksOf] at htr
    rw [← htr]
    simp [setDeleted, delTop, delete_peaks]

/-- A successful insert-mode edit produces exactly the `add_peaks`
state for some new index. -/
theorem on_edit_insert_success {s u : EState} {x y : Rat} {rj : Bool}
    (h : on_edit f s x y rj true = .ok u)
    (hlen : u.history.length = s.history.length + 1) :
    ∃ n, u = { add_peaks f s n with included := s.included ∪ {n} } := by
  unfold on_edit at h
  cases rj with
  | true => simp at h
  | false =>
    simp only [Bool.false_and, Bool.false_eq_true, if_false, if_true] at h
    by_cases ht : ss (timeOf s) x = ss (timeOf s) y
    · rw [if_neg (not_ne_iff.mpr ht)] at h
      cases h
      omega
    · rw [if_pos ht] at h
      cases harg : npArgmax? (pySlice s.data (ss (timeOf s) x) (ss (timeOf s) y)) with
      | none => rw [harg] at h; cases h
      | some tmp =>
        rw [harg] at h
        simp only [] at h
        by_cases hnp : ss (timeOf s) x + tmp = ss (timeOf s) x
        · rw [if_pos hnp] at h
          cases h
          omega
        · rw [if_neg hnp] at h
          cases h
          exact ⟨_, rfl⟩

/-- The insert payloads among the newest history records, newest
first. -/
def addsOf : List HRec → List Nat
  | [] => []
  | HRec.addRec n :: rs => n :: addsOf rs
  | _ :: rs => addsOf rs

/-- After one undo press that exactly recovers the previous state up to
the `deleted` set, the remaining undos still land on the fresh initial
state. -/
theorem roundtrip_tail {t u s0 : EState} {n : Nat}
    (hdel : u.deleted = t.deleted ∪ delTop u)
    (hundo1 : undo f u = .ok (setDeleted t (u.deleted \ delTop u)))
    (hundoN : undoN f n t = some s0)
    (hd0 : s0.deleted = ∅) :
    undoN f (n + 1) u = some s0 := by
  have hsub : u.deleted \ delTop u ⊆ t.deleted := by
    rw [hdel]
    intro z hz
    rw [Finset.mem_sdiff, Finset.mem_union] at hz
    tauto
  obtain ⟨B, hB1, hB2⟩ := undoN_frame f n t s0 (u.deleted \ delTop u) hundoN
  have hBsup : t.deleted ⊆ B := by
    rw [hd0] at hB2
    exact Finset.sdiff_eq_empty_iff_subset.mp hB2.symm
  have hXB : (u.deleted \ delTop u) \ B = ∅ :=
    Finset.sdiff_eq_empty_iff_subset.mpr (hsub.trans hBsup)
  simp only [undoN, hundo1]
  rw [hB1, hXB]
  have hss : setDeleted s0 ∅ = s0 := by rw [← hd0]; rfl
  rw [hss]

theorem editSeq_aux : ∀ {N : Nat} {s0 sN : EState},
    EditSeq f s0 sN N → WFS f s0 → s0.deleted = ∅ → s0.included = ∅ →
      (addsOf (sN.history.take N)).Nodup →
      WFS f sN ∧
        (∃ rs, sN.history = rs ++ s0.history ∧ rs.length = N ∧
          sN.included = (addsOf rs).toFinset) ∧
        undoN f N sN = some s0 := by
  intro N s0 sN hseq
  induction hseq with
  | refl =>
    intro hWF hd hi _
    refine ⟨hWF, ⟨[], by simp, rfl, by simp [addsOf, hi]⟩, rfl⟩
  | step x y rj ins hseq h hlen ih =>
    intro hWF hd hi hdist
    rename_i t u n
    cases ins with
    | true =>
      obtain ⟨m, hu⟩ := on_edit_insert_success f h hlen
      have hhist : u.history = HRec.addRec m :: t.history := by rw [hu]; rfl
      rw [hhist, List.take_succ_cons] at hdist
      simp only [addsOf, List.nodup_cons] at hdist
      obtain ⟨hm, hdist'⟩ := hdist
      obtain ⟨hWFt, ⟨rs, hrs, hlenrs, hinct⟩, hundo⟩ := ih hWF hd hi hdist'
      have htake : t.history.take n = rs := by
        rw [hrs, ← hlenrs]
        exact List.take_left rs s0.history
      have hfresh : m ∉ t.included := by
        rw [hinct]
        rw [htake] at hm
        intro hc
        exact hm (List.mem_toFinset.mp hc)
      obtain ⟨hWFu, hhist', hdel, hincl, hundo1⟩ :=
        invert_insert f hWFt hfresh hu
      have haddTop : addTop u = {m} := by
        simp [addTop, hhist']
      refine ⟨hWFu, ⟨.addRec m :: rs, ?_, ?_, ?_⟩,
        roundtrip_tail f hdel hundo1 hundo hd⟩
      · rw [hhist', hrs]
        rfl
      · simp [hlenrs]
      · rw [hincl, hinct, haddTop]
        simp only [addsOf, List.toFinset_cons]
        rw [Finset.union_comm, ← Finset.insert_eq]
    | false =>
      rcases on_edit_noinsert_cases f t x y rj u h with heq | ⟨D, hDeq, hD, hcase⟩
      · rw [heq] at hlen
        omega
      · subst hDeq
        rcases hcase with ⟨hrj, hu⟩ | ⟨hrj, hu⟩
        · -- reject edit
          have hhist : u.history =
              HRec.rejectRec (pySlice (peaksOf t)
                (ss (peaksOf t) (ss (timeOf t) x))
                (ss (peaksOf t) (ss (timeOf t) y))) :: t.history := by
            rw [hu]; rfl
          rw [hhist, List.take_succ_cons] at hdist
          simp only [addsOf] at hdist
          obtain ⟨hWFt, ⟨rs, hrs, hlenrs, hinct⟩, hundo⟩ := ih hWF hd hi hdist
          obtain ⟨hWFu, hhist', hdel, hincl, hundo1⟩ :=
            invert_reject f hWFt hD hu
          have haddTop : addTop u = ∅ := by
            simp [addTop, hhist']
          refine ⟨hWFu, ⟨.rejectRec (pySlice (peaksOf t)
              (ss (peaksOf t) (ss (timeOf t) x))
              (ss (peaksOf t) (ss (timeOf t) y))) :: rs, ?_, ?_, ?_⟩,
            roundtrip_tail f hdel hundo1 hundo hd⟩
          · rw [hhist', hrs]
            rfl
          · simp [hlenrs]
          · rw [hincl, hinct, haddTop]
            simp [addsOf]
        · -- delete edit
          have hhist : u.history =
              HRec.deleteRec (pySlice (peaksOf t)
                (ss (peaksOf t) (ss (timeOf t) x))
                (ss (peaksOf t) (ss (timeOf t) y))) :: t.history := by
            rw [hu]; rfl
          rw [hhist, List.take_succ_cons] at hdist
          simp only [addsOf] at hdist
          obtain ⟨hWFt, ⟨rs, hrs, hlenrs, hinct⟩, hundo⟩ := ih hWF hd hi hdist
          obtain ⟨hWFu, hhist', hdel, hincl, hundo1⟩ :=
            invert_delete f hWFt hu
          have haddTop : addTop u = ∅ := by
            simp [addTop, hhist']
          refine ⟨hWFu, ⟨.deleteRec (pySlice (peaksOf t)
              (ss (peaksOf t) (ss (timeOf t) x))
              (ss (peaksOf t) (ss (timeOf t) y))) :: rs, ?_, ?_, ?_⟩,
            roundtrip_tail f hdel hundo1 hundo hd⟩
          · rw [hhist', hrs]
            rfl
          · simp [hlenrs]
          · rw [hincl, hinct, haddTop]
            simp [addsOf]

end RoundTripSection

/-- C2 (amended): starting from a well-formed editor state with empty
`deleted` and `included` sets (a freshly constructed editor), any
sequence of `N` successful (non no-op) reject, delete, and insert edits
followed by exactly `N` undo calls restores the initial state exactly —
the peaks metadata, reject metadata, troughs, all three category sets,
and the History Stack — provided no two of the insert edits inserted
the same sample index. -/
theorem edits_then_undos_roundtrip (f : List Int → List Nat → List Nat)
    {N : Nat} {s0 sN : EState}
    (hWF : WFS f s0) (hd : s0.deleted = ∅) (hi : s0.included = ∅)
    (hseq : EditSeq f s0 sN N)
    (hdist : (addsOf (sN.history.take N)).Nodup) :
    undoN f N sN = some s0 :=
  (editSeq_aux f hseq hWF hd hi hdist).2.2

/-- A fresh editor over 4 samples whose maximum in the window `[1, 4)`
sits at sample 2, with no peaks yet. -/
def c2base : EState :=
  { data := [0, 0, 9, 0]
    fs := 1
    time := [0, 1, 2, 3]
    mpeaks := []
    mreject := []
    troughs := []
    history := []
    rejected := {}
    deleted := {}
    included := {} }

/-- `c2base` after one insert edit over `(1, 4)` (inserts peak 2). -/
def c2s1 : EState := resState (on_edit tf c2base 1 4 false true)

/-- `c2s1` after the same insert edit again (inserts a duplicate 2). -/
def c2s2 : EState := resState (on_edit tf c2s1 1 4 false true)

/-- C2 (counterexample): two successful insert edits of the same sample
index followed by two undo calls do not restore the initial state — the
second undo raises a `KeyError` (`included.remove` of an index the
first undo already removed), so the round-trip claim fails without a
freshness condition on insert indices. -/
theorem edits_then_undos_roundtrip_cex :
    on_edit tf c2base 1 4 false true = .ok c2s1 ∧
      c2s1.history.length = c2base.history.length + 1 ∧
      on_edit tf c2s1 1 4 false true = .ok c2s2 ∧
      c2s2.history.length = c2s1.history.length + 1 ∧
      undoN tf 2 c2s2 = none :=
  ⟨by decide, by decide, by decide, by decide, by decide⟩

/-- Witness for `edits_then_undos_roundtrip`: one insert edit on the
fresh state `c2base`, then one undo. -/
theorem edits_then_undos_roundtrip_witness :
    (WFS tf c2base ∧ c2base.deleted = ∅ ∧ c2base.included = ∅ ∧
      (addsOf (c2s1.history.take 1)).Nodup) ∧
      undoN tf 1 c2s1 = some c2base :=
  ⟨⟨⟨by decide, by decide, by decide, rfl⟩, rfl, rfl, by decide⟩,
    edits_then_undos_roundtrip tf ⟨by decide, by decide, by decide, rfl⟩ rfl rfl
      (EditSeq.step 1 4 false true (EditSeq.refl c2base) (by decide) (by decide))
      (by decide)⟩

end Peakdet
